import Mathlib

/-!
Shallow embedding of the meeting-room scheduler in
src/MeetingScheduler/MeetingScheduler.cpp.

The C++ engine keeps two structures:
  map<int, multiset<Meeting>> roomMeetings   (roomId -> meetings sorted by startTime)
  map<int, Meeting>           allMeetings    (meetingId -> Meeting)
plus a RoomService with a vector of rooms and an auto-incremented room id.

std::map is modelled as an association list sorted strictly by key;
multiset<Meeting> (ordered by Meeting::operator<, i.e. by startTime) is
modelled as a list sorted by startTime, with insertion at the upper bound
as multiset::insert does.
-/

namespace MeetingScheduler

/-- Model of the C++ Room record. -/
structure Room where
  roomId : Int
  roomName : String
deriving DecidableEq

/-- Model of the C++ Meeting record.  Meeting::operator< compares by
startTime only; Meeting::operator== compares by meetingId only. -/
structure Meeting where
  meetingId : Int
  roomId : Int
  startTime : Int
  endTime : Int
deriving DecidableEq

/-- std::map lookup (find). -/
def mapFind {α : Type} (k : Int) : List (Int × α) → Option α
  | [] => none
  | q :: rest => if k = q.1 then some q.2 else mapFind k rest

/-- std::map insert-or-assign (the effect of `m[k] = v`, and the insertion
performed by `operator[]` when the key is absent): the entry is placed at
its sorted position, or replaces the existing entry with the same key. -/
def mapSet {α : Type} (k : Int) (v : α) : List (Int × α) → List (Int × α)
  | [] => [(k, v)]
  | q :: rest =>
      if k < q.1 then (k, v) :: q :: rest
      else if k = q.1 then (k, v) :: rest
      else q :: mapSet k v rest

/-- std::map operator[]: returns the mapped value, default-inserting an
entry when the key is absent.  Returns the value together with the
(possibly extended) map. -/
def mapIndex {α : Type} (d : α) (k : Int) (m : List (Int × α)) : α × List (Int × α) :=
  match mapFind k m with
  | some v => (v, m)
  | none => (d, mapSet k d m)

/-- std::map emplace: inserts only when the key is absent. -/
def mapEmplace {α : Type} (k : Int) (v : α) (m : List (Int × α)) : List (Int × α) :=
  match mapFind k m with
  | some _ => m
  | none => mapSet k v m

/-- std::map erase(key) on a sorted map: removes the (unique) entry with
the given key, modelled as removal of the first entry carrying it. -/
def mapErase {α : Type} (k : Int) : List (Int × α) → List (Int × α)
  | [] => []
  | q :: rest => if k = q.1 then rest else q :: mapErase k rest

/-- Well-formedness of the association-list model of std::map: keys
strictly increase along the list. -/
def KeysSorted {α : Type} (m : List (Int × α)) : Prop :=
  List.Pairwise (fun a b => a.1 < b.1) m

/-- multiset<Meeting>::insert: the new element is placed at the upper
bound of its equivalence class, i.e. after every element whose startTime
is ≤ the new element's startTime. -/
def msInsert (m : Meeting) : List Meeting → List Meeting
  | [] => [m]
  | x :: xs => if x.startTime ≤ m.startTime then x :: msInsert m xs else m :: x :: xs

/-- multiset<Meeting>::find followed by erase of the returned iterator:
removes the first element whose startTime equals the probe's startTime
(Meeting::operator< looks only at startTime); when no element is
equivalent, find returns end() and nothing is erased. -/
def msEraseStart (t : Int) : List Meeting → List Meeting
  | [] => []
  | x :: xs => if x.startTime = t then xs else x :: msEraseStart t xs

/-- The conflict test of MeetingService::canBookRoom after the empty
check: upper_bound on a dummy meeting with the candidate's startTime
splits the sorted store into the elements with startTime ≤ s and the
rest; only the predecessor (last of the first part) and the successor
(head of the second part) are examined. -/
def canFit (s e : Int) (ms : List Meeting) : Bool :=
  if ms.isEmpty then true
  else
    let le := ms.takeWhile (fun x => x.startTime ≤ s)
    let gt := ms.dropWhile (fun x => x.startTime ≤ s)
    let prevOk : Bool := le.getLast?.all (fun prev => prev.endTime ≤ s)
    let nextOk : Bool := gt.head?.all (fun next => e ≤ next.startTime)
    prevOk && nextOk

/-- The full engine state: RoomService (rooms, nextRoomId) and
MeetingService (roomMeetings, allMeetings, nextMeetingId). -/
structure EngineState where
  rooms : List Room
  nextRoomId : Int
  roomMeetings : List (Int × List Meeting)
  allMeetings : List (Int × Meeting)
  nextMeetingId : Int
deriving DecidableEq

/-- Freshly constructed services: no rooms, no meetings, both counters 1. -/
def initState : EngineState :=
  { rooms := [], nextRoomId := 1, roomMeetings := [], allMeetings := [], nextMeetingId := 1 }

/-- RoomService::addRoom. -/
def addRoom (st : EngineState) (name : String) : Int × EngineState :=
  (st.nextRoomId,
    { st with
        rooms := st.rooms ++ [{ roomId := st.nextRoomId, roomName := name }],
        nextRoomId := st.nextRoomId + 1 })

/-- RoomService::roomExists: linear scan of the room vector. -/
def roomExists (rooms : List Room) (roomId : Int) : Bool :=
  rooms.any (fun r => r.roomId == roomId)

/-- MeetingService::addRoomToTracking: `roomMeetings[roomId] = {}`. -/
def addRoomToTracking (st : EngineState) (roomId : Int) : EngineState :=
  { st with roomMeetings := mapSet roomId [] st.roomMeetings }

/-- MeetingService::canBookRoom.  Returns the boolean answer together
with the post-call state: `roomMeetings[roomId]` default-inserts an empty
store when the room is registered but not yet tracked. -/
def canBookRoom (st : EngineState) (roomId s e : Int) : Bool × EngineState :=
  if roomExists st.rooms roomId then
    let p := mapIndex [] roomId st.roomMeetings
    (canFit s e p.1, { st with roomMeetings := p.2 })
  else (false, st)

/-- Outcome of MeetingService::scheduleMeeting: the two exceptions, or a
successful booking carrying the generated meetingId and the chosen
roomId (the C++ function returns the roomId; the meetingId is the value
of nextMeetingId consumed by the call). -/
inductive ScheduleResult where
  | invalidInterval : ScheduleResult
  | noRoomAvailable : ScheduleResult
  | booked : Int → Int → ScheduleResult
deriving DecidableEq

/-- The room loop of scheduleMeeting: walk the tracked rooms in map
order; at the first room that is registered and whose store accepts the
interval, insert the new meeting into that store in place. -/
def schedLoop (rooms : List Room) (s e mid : Int) :
    List (Int × List Meeting) → Option (Int × List (Int × List Meeting))
  | [] => none
  | q :: rest =>
      if roomExists rooms q.1 && canFit s e q.2 then
        some (q.1,
          (q.1, msInsert { meetingId := mid, roomId := q.1, startTime := s, endTime := e } q.2)
            :: rest)
      else
        match schedLoop rooms s e mid rest with
        | none => none
        | some r => some (r.1, q :: r.2)

/-- MeetingService::scheduleMeeting. -/
def scheduleMeeting (st : EngineState) (s e : Int) : ScheduleResult × EngineState :=
  if e ≤ s then (ScheduleResult.invalidInterval, st)
  else
    match schedLoop st.rooms s e st.nextMeetingId st.roomMeetings with
    | some r =>
        (ScheduleResult.booked st.nextMeetingId r.1,
         { st with
             roomMeetings := r.2,
             allMeetings := mapEmplace st.nextMeetingId
               { meetingId := st.nextMeetingId, roomId := r.1, startTime := s, endTime := e }
               st.allMeetings,
             nextMeetingId := st.nextMeetingId + 1 })
    | none => (ScheduleResult.noRoomAvailable, st)

/-- MeetingService::cancelMeeting. -/
def cancelMeeting (st : EngineState) (meetingId : Int) : Bool × EngineState :=
  match mapFind meetingId st.allMeetings with
  | none => (false, st)
  | some m =>
      let p := mapIndex [] m.roomId st.roomMeetings
      let ms := msEraseStart m.startTime p.1
      (true,
       { st with
           roomMeetings := mapSet m.roomId ms p.2,
           allMeetings := mapErase meetingId st.allMeetings })

/-- MeetingService::getFreeRooms: probe canBookRoom on every tracked
room, threading the engine state through each probe. -/
def getFreeRoomsAux (s e : Int) : EngineState → List Int → List Int × EngineState
  | st, [] => ([], st)
  | st, rid :: rest =>
      let p := canBookRoom st rid s e
      let q := getFreeRoomsAux s e p.2 rest
      (if p.1 then rid :: q.1 else q.1, q.2)

/-- MeetingService::getFreeRooms iterates the keys of roomMeetings. -/
def getFreeRooms (st : EngineState) (s e : Int) : List Int × EngineState :=
  getFreeRoomsAux s e st (st.roomMeetings.map Prod.fst)

/-- States obtainable by the setup interface alone (RoomService::addRoom
and MeetingService::addRoomToTracking on fresh services); the
MeetingService constructor that pre-tracks every registered room is a
sequence of such tracking steps. -/
inductive SetupReachable : EngineState → Prop where
  | empty : SetupReachable initState
  | room (st : EngineState) (name : String) :
      SetupReachable st → SetupReachable (addRoom st name).2
  | track (st : EngineState) (roomId : Int) :
      SetupReachable st → SetupReachable (addRoomToTracking st roomId)

/-- States reachable from a set-up engine by any sequence of
scheduleMeeting, cancelMeeting, canBookRoom and getFreeRooms calls. -/
inductive Reachable : EngineState → Prop where
  | setup (st : EngineState) : SetupReachable st → Reachable st
  | schedule (st : EngineState) (s e : Int) :
      Reachable st → Reachable (scheduleMeeting st s e).2
  | cancel (st : EngineState) (meetingId : Int) :
      Reachable st → Reachable (cancelMeeting st meetingId).2
  | probe (st : EngineState) (roomId s e : Int) :
      Reachable st → Reachable (canBookRoom st roomId s e).2
  | free (st : EngineState) (s e : Int) :
      Reachable st → Reachable (getFreeRooms st s e).2

/-! ### Lemmas about the std::map model -/

theorem mapFind_mapSet_self {α : Type} (k : Int) (v : α) (m : List (Int × α)) :
    mapFind k (mapSet k v m) = some v := by
  induction m with
  | nil => simp [mapSet, mapFind]
  | cons q rest ih =>
      by_cases h1 : k < q.1
      · simp [mapSet, h1, mapFind]
      · by_cases h2 : k = q.1
        · simp [mapSet, h1, h2, mapFind]
        · simp [mapSet, h1, h2, mapFind, ih]

theorem mapFind_mapSet_ne {α : Type} (k k' : Int) (v : α) (m : List (Int × α))
    (h : k' ≠ k) : mapFind k' (mapSet k v m) = mapFind k' m := by
  induction m with
  | nil => simp [mapSet, mapFind, h]
  | cons q rest ih =>
      by_cases h1 : k < q.1
      · simp [mapSet, h1, mapFind, h]
      · by_cases h2 : k = q.1
        · subst h2
          simp [mapSet, h1, mapFind, h]
        · by_cases h3 : k' = q.1
          · simp [mapSet, h1, h2, mapFind, h3]
          · simp [mapSet, h1, h2, mapFind, h3, ih]

theorem mem_mapSet {α : Type} (k : Int) (v : α) (m : List (Int × α)) (a : Int × α)
    (h : a ∈ mapSet k v m) : a = (k, v) ∨ a ∈ m := by
  induction m with
  | nil => simpa [mapSet] using h
  | cons q rest ih =>
      by_cases h1 : k < q.1
      · rcases (by simpa [mapSet, h1] using h) with h' | h' | h'
        · exact Or.inl h'
        · exact Or.inr (by simp [h'])
        · exact Or.inr (by simp [h'])
      · by_cases h2 : k = q.1
        · subst h2
          rcases (by simpa [mapSet, h1] using h) with h' | h'
          · exact Or.inl h'
          · exact Or.inr (by simp [h'])
        · rcases (by simpa [mapSet, h1, h2] using h) with h' | h'
          · exact Or.inr (by simp [h'])
          · rcases ih h' with h'' | h''
            · exact Or.inl h''
            · exact Or.inr (by simp [h''])

theorem keysSorted_mapSet {α : Type} (k : Int) (v : α) (m : List (Int × α))
    (h : KeysSorted m) : KeysSorted (mapSet k v m) := by
  induction m with
  | nil => simp [mapSet, KeysSorted]
  | cons q rest ih =>
      rw [KeysSorted, List.pairwise_cons] at h
      by_cases h1 : k < q.1
      · rw [KeysSorted, mapSet]
        simp only [h1, if_pos]
        refine List.Pairwise.cons ?_ (List.Pairwise.cons h.1 h.2)
        intro b hb
        rcases (by simpa using hb) with hb' | hb'
        · rw [hb']; exact h1
        · exact lt_trans h1 (h.1 b hb')
      · by_cases h2 : k = q.1
        · subst h2
          rw [KeysSorted, mapSet]
          simp only [lt_irrefl, if_neg h1, if_pos rfl]
          exact List.Pairwise.cons h.1 h.2
        · rw [KeysSorted, mapSet]
          simp only [h1, h2, if_neg, if_false]
          refine List.Pairwise.cons ?_ (ih h.2)
          intro b hb
          rcases mem_mapSet k v rest b hb with hb' | hb'
          · rw [hb']
            rcases lt_or_ge q.1 k with hlt | hge
            · exact hlt
            · exact absurd (lt_of_le_of_ne (le_of_not_lt h1) (Ne.symm h2)) (not_lt_of_ge hge)
          · exact h.1 b hb'

theorem mapErase_sublist {α : Type} (k : Int) (m : List (Int × α)) :
    (mapErase k m).Sublist m := by
  induction m with
  | nil => simp [mapErase]
  | cons q rest ih =>
      by_cases h1 : k = q.1
      · rw [show mapErase k (q :: rest) = rest by simp [mapErase, h1]]
        exact List.sublist_cons_self q rest
      · simpa [mapErase, h1] using List.Sublist.cons₂ q ih

theorem keysSorted_mapErase {α : Type} (k : Int) (m : List (Int × α))
    (h : KeysSorted m) : KeysSorted (mapErase k m) :=
  List.Pairwise.sublist (mapErase_sublist k m) h

theorem mapFind_mapErase_ne {α : Type} (k k' : Int) (m : List (Int × α))
    (h : k' ≠ k) : mapFind k' (mapErase k m) = mapFind k' m := by
  induction m with
  | nil => simp [mapErase]
  | cons q rest ih =>
      by_cases h1 : k = q.1
      · subst h1
        simp [mapErase, mapFind, h]
      · by_cases h2 : k' = q.1
        · simp [mapErase, h1, mapFind, h2]
        · simp [mapErase, h1, mapFind, h2, ih]

theorem mem_iff_mapFind {α : Type} (m : List (Int × α)) (h : KeysSorted m)
    (k : Int) (v : α) : (k, v) ∈ m ↔ mapFind k m = some v := by
  induction m with
  | nil => simp [mapFind]
  | cons q rest ih =>
      obtain ⟨q1, q2⟩ := q
      rw [KeysSorted, List.pairwise_cons] at h
      by_cases h1 : k = q1
      · subst h1
        rw [mapFind, if_pos rfl]
        constructor
        · intro hh
          rcases List.mem_cons.mp hh with hh | hh
          · rw [show q2 = v from (Prod.mk.injEq _ _ _ _ ▸ hh.symm).2]
          · exfalso
            have hq : k < k := by simpa using h.1 _ hh
            exact lt_irrefl k hq
        · intro hh
          have hv : q2 = v := by injection hh
          exact List.mem_cons.mpr (Or.inl (by rw [hv]))
      · rw [mapFind, if_neg (by simpa using h1)]
        rw [← ih h.2]
        constructor
        · intro hh
          rcases List.mem_cons.mp hh with hh | hh
          · exact absurd (Prod.mk.injEq _ _ _ _ ▸ hh).1 h1
          · exact hh
        · intro hh
          exact List.mem_cons.mpr (Or.inr hh)

theorem mapFind_mem_keys {α : Type} (k : Int) (v : α) (m : List (Int × α))
    (h : mapFind k m = some v) : k ∈ m.map Prod.fst := by
  induction m with
  | nil => simp [mapFind] at h
  | cons q rest ih =>
      by_cases h1 : k = q.1
      · simp [h1]
      · rw [mapFind, if_neg h1] at h
        simpa using Or.inr (by simpa using ih h)

theorem mem_keys_mapFind {α : Type} (k : Int) (m : List (Int × α))
    (h : k ∈ m.map Prod.fst) : ∃ v, mapFind k m = some v := by
  induction m with
  | nil => simp at h
  | cons q rest ih =>
      by_cases h1 : k = q.1
      · exact ⟨q.2, by simp [mapFind, h1]⟩
      · rcases (by simpa using h) with h' | h'
        · exact absurd h' h1
        · rcases ih (by simpa using h') with ⟨v, hv⟩
          exact ⟨v, by simp [mapFind, h1, hv]⟩

theorem mapFind_decomp {α : Type} (k : Int) (v : α) (m : List (Int × α))
    (h : mapFind k m = some v) :
    ∃ p1 p2, m = p1 ++ (k, v) :: p2 ∧ ∀ q ∈ p1, q.1 ≠ k := by
  induction m with
  | nil => simp [mapFind] at h
  | cons q rest ih =>
      obtain ⟨q1, q2⟩ := q
      by_cases h1 : k = q1
      · subst h1
        rw [mapFind, if_pos rfl] at h
        have hv : q2 = v := by injection h
        exact ⟨[], rest, by rw [hv]; rfl, by simp⟩
      · rw [mapFind, if_neg (by simpa using h1)] at h
        rcases ih h with ⟨p1, p2, hm, hp⟩
        refine ⟨(q1, q2) :: p1, p2, by rw [hm, List.cons_append], ?_⟩
        intro x hx
        rcases List.mem_cons.mp hx with hx' | hx'
        · rw [hx']
          simpa using fun he => h1 he.symm
        · exact hp x hx'

theorem mapSet_decomp {α : Type} (k : Int) (v v' : α) (p1 p2 : List (Int × α))
    (h : ∀ q ∈ p1, q.1 < k) :
    mapSet k v' (p1 ++ (k, v) :: p2) = p1 ++ (k, v') :: p2 := by
  induction p1 with
  | nil => simp [mapSet]
  | cons q rest ih =>
      have hq : q.1 < k := h q (by simp)
      rw [List.cons_append, mapSet]
      rw [if_neg (not_lt_of_gt hq), if_neg (by exact fun he => absurd he.symm (ne_of_lt hq))]
      rw [ih (fun x hx => h x (by simp [hx]))]
      simp

theorem mapErase_decomp {α : Type} (k : Int) (v : α) (p1 p2 : List (Int × α))
    (h : ∀ q ∈ p1, q.1 ≠ k) :
    mapErase k (p1 ++ (k, v) :: p2) = p1 ++ p2 := by
  induction p1 with
  | nil => simp [mapErase]
  | cons q rest ih =>
      have hq : q.1 ≠ k := h q (by simp)
      rw [List.cons_append, mapErase, if_neg (fun he => hq he.symm),
        ih (fun x hx => h x (by simp [hx]))]
      simp

theorem mapFind_decomp_eq {α : Type} (k : Int) (v : α) (p1 p2 : List (Int × α))
    (h : ∀ q ∈ p1, q.1 ≠ k) :
    mapFind k (p1 ++ (k, v) :: p2) = some v := by
  induction p1 with
  | nil => simp [mapFind]
  | cons q rest ih =>
      rw [List.cons_append, mapFind, if_neg (fun he => h q (by simp) he.symm)]
      exact ih (fun x hx => h x (by simp [hx]))

theorem mapErase_mapSet_fresh {α : Type} (k : Int) (v : α) (m : List (Int × α))
    (hs : KeysSorted m) (h : mapFind k m = none) :
    mapErase k (mapSet k v m) = m := by
  induction m with
  | nil => simp [mapSet, mapErase]
  | cons q rest ih =>
      rw [KeysSorted, List.pairwise_cons] at hs
      rw [mapFind] at h
      by_cases h1 : k = q.1
      · simp [h1] at h
      · rw [if_neg h1] at h
        by_cases h2 : k < q.1
        · rw [mapSet, if_pos h2, mapErase, if_pos rfl]
        · rw [mapSet, if_neg h2, if_neg h1, mapErase, if_neg h1, ih hs.2 h]

theorem mem_mapSet_sorted {α : Type} (k : Int) (v : α) (m : List (Int × α))
    (hs : KeysSorted m) (a : Int × α) :
    a ∈ mapSet k v m ↔ a = (k, v) ∨ (a ∈ m ∧ a.1 ≠ k) := by
  induction m with
  | nil => simp [mapSet]
  | cons q rest ih =>
      rw [KeysSorted, List.pairwise_cons] at hs
      by_cases h1 : k < q.1
      · rw [mapSet, if_pos h1]
        constructor
        · intro ha
          rcases List.mem_cons.mp ha with ha' | ha'
          · exact Or.inl ha'
          · refine Or.inr ⟨ha', ?_⟩
            rcases List.mem_cons.mp ha' with hq | hq
            · rw [hq]
              exact fun he => absurd he.symm (ne_of_lt h1)
            · have := hs.1 a hq
              intro he
              rw [he] at this
              omega
        · intro ha
          rcases ha with ha' | ha'
          · exact List.mem_cons.mpr (Or.inl ha')
          · exact List.mem_cons.mpr (Or.inr ha'.1)
      · by_cases h2 : k = q.1
        · subst h2
          rw [mapSet, if_neg h1, if_pos rfl]
          constructor
          · intro ha
            rcases List.mem_cons.mp ha with ha' | ha'
            · exact Or.inl ha'
            · refine Or.inr ⟨List.mem_cons.mpr (Or.inr ha'), ?_⟩
              have := hs.1 a ha'
              omega
          · intro ha
            rcases ha with ha' | ⟨hmem, hne⟩
            · exact List.mem_cons.mpr (Or.inl ha')
            · rcases List.mem_cons.mp hmem with hq | hq
              · exact absurd (by rw [hq]) hne
              · exact List.mem_cons.mpr (Or.inr hq)
        · rw [mapSet, if_neg h1, if_neg h2]
          constructor
          · intro ha
            rcases List.mem_cons.mp ha with ha' | ha'
            · refine Or.inr ⟨List.mem_cons.mpr (Or.inl ha'), ?_⟩
              rw [ha']
              exact fun he => h2 he.symm
            · rcases (ih hs.2).mp ha' with hb | hb
              · exact Or.inl hb
              · exact Or.inr ⟨List.mem_cons.mpr (Or.inr hb.1), hb.2⟩
          · intro ha
            rcases ha with ha' | ⟨hmem, hne⟩
            · exact List.mem_cons.mpr (Or.inr ((ih hs.2).mpr (Or.inl ha')))
            · rcases List.mem_cons.mp hmem with hq | hq
              · exact List.mem_cons.mpr (Or.inl hq)
              · exact List.mem_cons.mpr (Or.inr ((ih hs.2).mpr (Or.inr ⟨hq, hne⟩)))

theorem mapFind_mapErase_self {α : Type} (k : Int) (m : List (Int × α))
    (hs : KeysSorted m) : mapFind k (mapErase k m) = none := by
  induction m with
  | nil => simp [mapErase, mapFind]
  | cons q rest ih =>
      rw [KeysSorted, List.pairwise_cons] at hs
      by_cases h1 : k = q.1
      · rw [mapErase, if_pos h1]
        cases hf : mapFind k rest with
        | none => rfl
        | some v =>
            have hmem : (k, v) ∈ rest := (mem_iff_mapFind rest hs.2 k v).mpr hf
            have := hs.1 (k, v) hmem
            simp only at this
            omega
      · rw [mapErase, if_neg h1, mapFind, if_neg h1, ih hs.2]

theorem mapFind_replace_ne {α : Type} (k r : Int) (v w : α) (pre post : List (Int × α))
    (h : k ≠ r) :
    mapFind k (pre ++ (r, v) :: post) = mapFind k (pre ++ (r, w) :: post) := by
  induction pre with
  | nil => simp [mapFind, h]
  | cons q rest ih =>
      by_cases hq : k = q.1
      · simp [mapFind, hq]
      · simp only [List.cons_append, mapFind, if_neg hq]
        exact ih

/-! ### Lemmas about the sorted meeting-store model -/

theorem dropWhile_head_not {α : Type} (p : α → Bool) (l : List α) (y : α) (t : List α)
    (h : l.dropWhile p = y :: t) : p y = false := by
  induction l with
  | nil => simp [List.dropWhile] at h
  | cons x xs ih =>
      by_cases hp : p x
      · rw [List.dropWhile_cons, if_pos hp] at h
        exact ih h
      · rw [List.dropWhile_cons, if_neg hp] at h
        cases h
        simpa using hp

/-- Non-overlap plus interval validity forces the strict ordering of
start times inside one store. -/
theorem chain_strict_start (ms : List Meeting)
    (hvalid : ∀ m ∈ ms, m.startTime < m.endTime)
    (hchain : List.Pairwise (fun a b => a.endTime ≤ b.startTime) ms) :
    List.Pairwise (fun a b : Meeting => a.startTime < b.startTime) ms := by
  refine List.Pairwise.imp_of_mem ?_ hchain
  intro a b ha hb hab
  have hva := hvalid a ha
  omega

theorem chain_of_disjoint (ms : List Meeting)
    (hvalid : ∀ m ∈ ms, m.startTime < m.endTime)
    (hsort : List.Pairwise (fun a b : Meeting => a.startTime ≤ b.startTime) ms)
    (hdisj : List.Pairwise (fun a b : Meeting =>
        a.endTime ≤ b.startTime ∨ b.endTime ≤ a.startTime) ms) :
    List.Pairwise (fun a b : Meeting => a.endTime ≤ b.startTime) ms := by
  refine List.Pairwise.imp_of_mem ?_ (hsort.and hdisj)
  intro a b ha hb hab
  have hvb := hvalid b hb
  rcases hab.2 with h | h
  · exact h
  · omega

theorem mem_of_getLast?_eq {α : Type} (l : List α) (a : α) (h : l.getLast? = some a) :
    a ∈ l := by
  have hne : l ≠ [] := by
    intro hl
    rw [hl] at h
    simp at h
  rw [List.getLast?_eq_getLast l hne] at h
  have ha : a = l.getLast hne := by
    injection h with h'
    exact h'.symm
  rw [ha]
  exact List.getLast_mem hne

theorem canFit_le_bound (s e : Int) (ms : List Meeting)
    (hchain : List.Pairwise (fun a b => a.endTime ≤ b.startTime) ms)
    (hfit : canFit s e ms = true) :
    ∀ x ∈ ms.takeWhile (fun x => x.startTime ≤ s), x.endTime ≤ s := by
  intro x hx
  have hne : ms ≠ [] := by
    intro h
    rw [h] at hx
    simp at hx
  rw [canFit, if_neg (by simpa using hne)] at hfit
  simp only [Bool.and_eq_true] at hfit
  set le := ms.takeWhile (fun x => x.startTime ≤ s) with hle
  have hlne : le ≠ [] := by
    intro h
    rw [h] at hx
    simp at hx
  have hprev := hfit.1
  rw [List.getLast?_eq_getLast le hlne] at hprev
  have hlast : le.getLast hlne ∈ le := List.getLast_mem hlne
  have hlaststart : (le.getLast hlne).startTime ≤ s := by
    have hmem : le.getLast hlne ∈ ms.takeWhile (fun x => x.startTime ≤ s) := by
      rw [← hle]
      exact hlast
    simpa using List.mem_takeWhile_imp hmem
  have hlastend : (le.getLast hlne).endTime ≤ s := by simpa using hprev
  have hx' : x ∈ le.dropLast ++ [le.getLast hlne] := by
    rw [List.dropLast_append_getLast hlne]
    exact hx
  have hsub : le.Sublist ms := by
    rw [hle]
    exact List.takeWhile_sublist _
  have hchle : List.Pairwise (fun a b => a.endTime ≤ b.startTime) le :=
    List.Pairwise.sublist hsub hchain
  rw [← List.dropLast_append_getLast hlne, List.pairwise_append] at hchle
  rcases List.mem_append.mp hx' with hx'' | hx''
  · have := hchle.2.2 x hx'' (le.getLast hlne) (by simp)
    omega
  · have : x = le.getLast hlne := by simpa using hx''
    rw [this]
    exact hlastend

theorem canFit_gt_bound (s e : Int) (ms : List Meeting)
    (hvalid : ∀ m ∈ ms, m.startTime < m.endTime)
    (hchain : List.Pairwise (fun a b => a.endTime ≤ b.startTime) ms)
    (hfit : canFit s e ms = true) :
    ∀ x ∈ ms.dropWhile (fun x => x.startTime ≤ s), e ≤ x.startTime := by
  intro x hx
  have hne : ms ≠ [] := by
    intro h
    rw [h] at hx
    simp at hx
  rw [canFit, if_neg (by simpa using hne)] at hfit
  simp only [Bool.and_eq_true] at hfit
  set gt := ms.dropWhile (fun x => x.startTime ≤ s) with hgt
  obtain ⟨y, t, hyt⟩ : ∃ y t, gt = y :: t := by
    cases hg : gt with
    | nil => rw [hg] at hx; simp at hx
    | cons y t => exact ⟨y, t, rfl⟩
  have hnext := hfit.2
  rw [hyt] at hnext
  have hynext : e ≤ y.startTime := by simpa using hnext
  have hchgt : List.Pairwise (fun a b => a.endTime ≤ b.startTime) gt :=
    List.Pairwise.sublist (hgt ▸ List.dropWhile_sublist _) hchain
  rw [hyt, List.pairwise_cons] at hchgt
  rw [hyt] at hx
  rcases List.mem_cons.mp hx with hx' | hx'
  · rw [hx']
    exact hynext
  · have hy : y ∈ ms := by
      have : y ∈ gt := by rw [hyt]; simp
      exact List.Sublist.mem this (hgt ▸ List.dropWhile_sublist _)
    have hvy := hvalid y hy
    have := hchgt.1 x hx'
    omega

/-- The heart of claim C3: on a store that is valid, sorted and
non-overlapping, the two-neighbour test of canBookRoom answers exactly
whether the candidate is disjoint from every booked interval. -/
theorem canFit_true_iff (s e : Int) (ms : List Meeting)
    (hvalid : ∀ m ∈ ms, m.startTime < m.endTime)
    (hchain : List.Pairwise (fun a b => a.endTime ≤ b.startTime) ms)
    (hse : s < e) :
    canFit s e ms = true ↔ ∀ m ∈ ms, m.endTime ≤ s ∨ e ≤ m.startTime := by
  constructor
  · intro hfit m hm
    have hm' : m ∈ ms.takeWhile (fun x => x.startTime ≤ s)
        ++ ms.dropWhile (fun x => x.startTime ≤ s) := by
      rw [List.takeWhile_append_dropWhile]
      exact hm
    rcases List.mem_append.mp hm' with h | h
    · exact Or.inl (canFit_le_bound s e ms hchain hfit m h)
    · exact Or.inr (canFit_gt_bound s e ms hvalid hchain hfit m h)
  · intro hall
    cases hms : ms with
    | nil => rw [hms] at *; simp [canFit]
    | cons z zs =>
        rw [← hms]
        have hne : ms ≠ [] := by rw [hms]; simp
        rw [canFit, if_neg (by simpa using hne)]
        simp only [Bool.and_eq_true]
        constructor
        · cases hl : (ms.takeWhile (fun x => x.startTime ≤ s)).getLast? with
          | none => simp
          | some prev =>
              have hpmem : prev ∈ ms.takeWhile (fun x => x.startTime ≤ s) :=
                mem_of_getLast?_eq _ prev hl
              have hps : prev.startTime ≤ s := by
                simpa using List.mem_takeWhile_imp hpmem
              have hpm : prev ∈ ms :=
                List.Sublist.mem hpmem (List.takeWhile_sublist _)
              rcases hall prev hpm with h | h
              · simp [h]
              · omega
        · cases hg : (ms.dropWhile (fun x => x.startTime ≤ s)).head? with
          | none => simp
          | some next =>
              have hne2 : ms.dropWhile (fun x => x.startTime ≤ s) ≠ [] := by
                intro hh
                rw [hh] at hg
                simp at hg
              obtain ⟨y, t, hyt⟩ := List.exists_cons_of_ne_nil hne2
              have hy : y = next := by
                rw [hyt] at hg
                simpa using hg
              subst hy
              have hns : ¬ y.startTime ≤ s := by
                simpa using dropWhile_head_not _ ms y t hyt
              have hnm : y ∈ ms :=
                List.Sublist.mem (by rw [hyt]; simp) (List.dropWhile_sublist _)
              have hvn := hvalid y hnm
              rcases hall y hnm with h | h
              · omega
              · simp [h]

theorem mem_msInsert (m x : Meeting) (ms : List Meeting) :
    x ∈ msInsert m ms ↔ x = m ∨ x ∈ ms := by
  induction ms with
  | nil => simp [msInsert]
  | cons y ys ih =>
      by_cases h : y.startTime ≤ m.startTime
      · simp only [msInsert, if_pos h, List.mem_cons, ih]
        tauto
      · simp only [msInsert, if_neg h, List.mem_cons]

theorem msInsert_split (m : Meeting) (ms : List Meeting) :
    msInsert m ms
      = ms.takeWhile (fun x => x.startTime ≤ m.startTime)
        ++ m :: ms.dropWhile (fun x => x.startTime ≤ m.startTime) := by
  induction ms with
  | nil => simp [msInsert]
  | cons y ys ih =>
      by_cases h : y.startTime ≤ m.startTime
      · simp [msInsert, h, List.takeWhile_cons, List.dropWhile_cons, ih]
      · simp [msInsert, h, List.takeWhile_cons, List.dropWhile_cons]

/-- Inserting an interval that canFit accepted preserves the per-room
non-overlap chain. -/
theorem msInsert_chain (mid rid s e : Int) (ms : List Meeting)
    (hvalid : ∀ m ∈ ms, m.startTime < m.endTime)
    (hchain : List.Pairwise (fun a b => a.endTime ≤ b.startTime) ms)
    (hfit : canFit s e ms = true) :
    List.Pairwise (fun a b => a.endTime ≤ b.startTime)
      (msInsert { meetingId := mid, roomId := rid, startTime := s, endTime := e } ms) := by
  rw [msInsert_split]
  show List.Pairwise (fun a b => a.endTime ≤ b.startTime)
      (ms.takeWhile (fun x => x.startTime ≤ s)
        ++ { meetingId := mid, roomId := rid, startTime := s, endTime := e }
          :: ms.dropWhile (fun x => x.startTime ≤ s))
  have hsplit : ms.takeWhile (fun x => x.startTime ≤ s)
      ++ ms.dropWhile (fun x => x.startTime ≤ s) = ms :=
    List.takeWhile_append_dropWhile _ _
  have hchsplit := hchain
  rw [← hsplit, List.pairwise_append] at hchsplit
  rw [List.pairwise_append]
  refine ⟨hchsplit.1, ?_, ?_⟩
  · rw [List.pairwise_cons]
    refine ⟨?_, hchsplit.2.1⟩
    intro b hb
    exact canFit_gt_bound s e ms hvalid hchain hfit b hb
  · intro a ha b hb
    rcases List.mem_cons.mp hb with hb' | hb'
    · rw [hb']
      exact canFit_le_bound s e ms hchain hfit a ha
    · exact hchsplit.2.2 a ha b hb'

theorem msEraseStart_sublist (t : Int) (ms : List Meeting) :
    (msEraseStart t ms).Sublist ms := by
  induction ms with
  | nil => simp [msEraseStart]
  | cons y ys ih =>
      by_cases h : y.startTime = t
      · rw [show msEraseStart t (y :: ys) = ys by simp [msEraseStart, h]]
        exact List.sublist_cons_self y ys
      · simpa [msEraseStart, h] using List.Sublist.cons₂ y ih

theorem msEraseStart_append (t : Int) (l1 : List Meeting) (y : Meeting) (l2 : List Meeting)
    (h1 : ∀ x ∈ l1, x.startTime ≠ t) (hy : y.startTime = t) :
    msEraseStart t (l1 ++ y :: l2) = l1 ++ l2 := by
  induction l1 with
  | nil => simp [msEraseStart, hy]
  | cons x xs ih =>
      rw [List.cons_append, msEraseStart, if_neg (h1 x (by simp)),
        ih (fun z hz => h1 z (by simp [hz])), List.cons_append]

/-- In a valid non-overlapping store, an element is located by its start
time alone: everything before it starts strictly earlier and everything
after it starts strictly later. -/
theorem mem_split_strict (ms : List Meeting) (m : Meeting)
    (hvalid : ∀ x ∈ ms, x.startTime < x.endTime)
    (hchain : List.Pairwise (fun a b => a.endTime ≤ b.startTime) ms)
    (hm : m ∈ ms) :
    ∃ l1 l2, ms = l1 ++ m :: l2 ∧ (∀ x ∈ l1, x.startTime < m.startTime)
      ∧ (∀ x ∈ l2, m.startTime < x.startTime) := by
  have hstrict := chain_strict_start ms hvalid hchain
  obtain ⟨l1, l2, hsplit⟩ := List.append_of_mem hm
  rw [hsplit, List.pairwise_append] at hstrict
  refine ⟨l1, l2, hsplit, ?_, ?_⟩
  · intro x hx
    exact hstrict.2.2 x hx m (by simp)
  · have h2 := hstrict.2.1
    rw [List.pairwise_cons] at h2
    exact fun x hx => h2.1 x hx

/-! ### Characterizations of the engine operations -/

theorem canBookRoom_unreg (st : EngineState) (rid s e : Int)
    (h : roomExists st.rooms rid = false) :
    canBookRoom st rid s e = (false, st) := by
  simp [canBookRoom, h]

theorem canBookRoom_tracked (st : EngineState) (rid s e : Int) (ms : List Meeting)
    (h : mapFind rid st.roomMeetings = some ms) :
    canBookRoom st rid s e = (roomExists st.rooms rid && canFit s e ms, st) := by
  by_cases hr : roomExists st.rooms rid
  · simp [canBookRoom, hr, mapIndex, h]
  · simp [canBookRoom, hr]

theorem canBookRoom_fresh (st : EngineState) (rid s e : Int)
    (hr : roomExists st.rooms rid = true)
    (h : mapFind rid st.roomMeetings = none) :
    canBookRoom st rid s e
      = (true, { st with roomMeetings := mapSet rid [] st.roomMeetings }) := by
  simp [canBookRoom, hr, mapIndex, h, canFit]

theorem getFreeRoomsAux_all_tracked (s e : Int) (st : EngineState) (keys : List Int)
    (h : ∀ k ∈ keys, ∃ ms, mapFind k st.roomMeetings = some ms) :
    getFreeRoomsAux s e st keys
      = (keys.filter (fun rid =>
            roomExists st.rooms rid
              && canFit s e ((mapFind rid st.roomMeetings).getD [])), st) := by
  induction keys with
  | nil => simp [getFreeRoomsAux]
  | cons rid rest ih =>
      obtain ⟨ms, hms⟩ := h rid (by simp)
      rw [getFreeRoomsAux]
      rw [show canBookRoom st rid s e = (roomExists st.rooms rid && canFit s e ms, st) from
        canBookRoom_tracked st rid s e ms hms]
      rw [ih (fun k hk => h k (by simp [hk]))]
      simp [List.filter_cons, hms]

/-- getFreeRooms probes exactly the tracked rooms, every probe finds its
key in the map, and the engine state is returned unchanged. -/
theorem getFreeRooms_eq (st : EngineState) (s e : Int) :
    getFreeRooms st s e
      = ((st.roomMeetings.map Prod.fst).filter (fun rid =>
            roomExists st.rooms rid
              && canFit s e ((mapFind rid st.roomMeetings).getD [])), st) := by
  rw [getFreeRooms]
  exact getFreeRoomsAux_all_tracked s e st _
    (fun k hk => mem_keys_mapFind k st.roomMeetings hk)

theorem schedLoop_none_iff (rooms : List Room) (s e mid : Int)
    (rm : List (Int × List Meeting)) :
    schedLoop rooms s e mid rm = none ↔
      ∀ q ∈ rm, (roomExists rooms q.1 && canFit s e q.2) = false := by
  induction rm with
  | nil => simp [schedLoop]
  | cons q rest ih =>
      rw [schedLoop]
      by_cases hc : (roomExists rooms q.1 && canFit s e q.2) = true
      · rw [if_pos hc]
        constructor
        · intro hh
          exact Option.noConfusion hh
        · intro hh
          rw [hh q (by simp)] at hc
          cases hc
      · have hc' : (roomExists rooms q.1 && canFit s e q.2) = false := by
          simpa using hc
        rw [if_neg hc]
        cases hrec : schedLoop rooms s e mid rest with
        | none =>
            constructor
            · intro _ x hx
              rcases List.mem_cons.mp hx with hx' | hx'
              · rw [hx']
                exact hc'
              · exact (ih.mp hrec) x hx'
            · intro _
              rfl
        | some r =>
            constructor
            · intro hh
              exact Option.noConfusion hh
            · intro hh
              have hn : schedLoop rooms s e mid rest = none :=
                ih.mpr (fun x hx => hh x (List.mem_cons.mpr (Or.inr hx)))
              rw [hn] at hrec
              exact Option.noConfusion hrec

theorem schedLoop_some (rooms : List Room) (s e mid : Int)
    (rm : List (Int × List Meeting)) (rid : Int) (rm' : List (Int × List Meeting))
    (h : schedLoop rooms s e mid rm = some (rid, rm')) :
    ∃ pre ms post,
      rm = pre ++ (rid, ms) :: post ∧
      (∀ q ∈ pre, (roomExists rooms q.1 && canFit s e q.2) = false) ∧
      (roomExists rooms rid && canFit s e ms) = true ∧
      rm' = pre
        ++ (rid, msInsert { meetingId := mid, roomId := rid, startTime := s, endTime := e } ms)
          :: post := by
  induction rm generalizing rm' with
  | nil => simp [schedLoop] at h
  | cons q rest ih =>
      by_cases hc : (roomExists rooms q.1 && canFit s e q.2) = true
      · rw [schedLoop, if_pos hc] at h
        have h' := h
        simp only [Option.some.injEq, Prod.mk.injEq] at h'
        obtain ⟨hrid, hrm'⟩ := h'
        subst hrid
        refine ⟨[], q.2, rest, by simp, by simp, hc, ?_⟩
        rw [← hrm']
        simp
      · rw [schedLoop, if_neg hc] at h
        cases hrec : schedLoop rooms s e mid rest with
        | none =>
            rw [hrec] at h
            cases h
        | some r =>
            obtain ⟨r1, r2⟩ := r
            rw [hrec] at h
            simp only [Option.some.injEq, Prod.mk.injEq] at h
            obtain ⟨hr1, hrm'⟩ := h
            subst hr1
            obtain ⟨pre, ms, post, hrm, hpre, hcond, hr2⟩ := ih r2 hrec
            refine ⟨q :: pre, ms, post, by rw [List.cons_append, ← hrm], ?_, hcond, ?_⟩
            · intro x hx
              rcases List.mem_cons.mp hx with hx' | hx'
              · rw [hx']
                simpa using hc
              · exact hpre x hx'
            · rw [← hrm', hr2, List.cons_append]

/-! ### The reachable-state invariant -/

/-- Everything that holds of every reachable engine state: both maps are
well-formed, every store holds valid, non-overlapping intervals tagged
with its own room id, and the meeting index and the stores describe
exactly the same set of meetings, all with ids below the counter. -/
structure Inv (st : EngineState) : Prop where
  rmSorted : KeysSorted st.roomMeetings
  amSorted : KeysSorted st.allMeetings
  storeValid : ∀ p ∈ st.roomMeetings, ∀ m ∈ p.2, m.startTime < m.endTime
  storeChain : ∀ p ∈ st.roomMeetings,
    List.Pairwise (fun a b => a.endTime ≤ b.startTime) p.2
  storeRoom : ∀ p ∈ st.roomMeetings, ∀ m ∈ p.2, m.roomId = p.1
  storeIdx : ∀ p ∈ st.roomMeetings, ∀ m ∈ p.2,
    mapFind m.meetingId st.allMeetings = some m
  idxKey : ∀ i m, mapFind i st.allMeetings = some m → m.meetingId = i
  idxStore : ∀ i m, mapFind i st.allMeetings = some m →
    ∃ ms, mapFind m.roomId st.roomMeetings = some ms ∧ m ∈ ms
  idxFresh : ∀ i m, mapFind i st.allMeetings = some m → i < st.nextMeetingId

theorem setup_stores_empty (st : EngineState) (h : SetupReachable st) :
    st.allMeetings = [] ∧ KeysSorted st.roomMeetings ∧ ∀ p ∈ st.roomMeetings, p.2 = [] := by
  induction h with
  | empty => simp [initState, KeysSorted]
  | room st name hst ih => simpa [addRoom] using ih
  | track st rid hst ih =>
      refine ⟨ih.1, keysSorted_mapSet rid [] _ ih.2.1, ?_⟩
      intro p hp
      rcases mem_mapSet rid [] _ p hp with h' | h'
      · rw [h']
      · exact ih.2.2 p h'

theorem inv_of_setup (st : EngineState) (h : SetupReachable st) : Inv st := by
  obtain ⟨ham, hsort, hempty⟩ := setup_stores_empty st h
  refine ⟨hsort, ?_, ?_, ?_, ?_, ?_, ?_, ?_, ?_⟩
  · rw [KeysSorted, ham]
    exact List.Pairwise.nil
  · intro p hp m hm
    rw [hempty p hp] at hm
    simp at hm
  · intro p hp
    rw [hempty p hp]
    exact List.Pairwise.nil
  · intro p hp m hm
    rw [hempty p hp] at hm
    simp at hm
  · intro p hp m hm
    rw [hempty p hp] at hm
    simp at hm
  · intro i m hfind
    rw [ham] at hfind
    simp [mapFind] at hfind
  · intro i m hfind
    rw [ham] at hfind
    simp [mapFind] at hfind
  · intro i m hfind
    rw [ham] at hfind
    simp [mapFind] at hfind

theorem inv_canBookRoom (st : EngineState) (rid s e : Int) (h : Inv st) :
    Inv (canBookRoom st rid s e).2 := by
  by_cases hr : roomExists st.rooms rid = true
  · cases hms : mapFind rid st.roomMeetings with
    | some ms =>
        rw [canBookRoom_tracked st rid s e ms hms]
        exact h
    | none =>
        rw [canBookRoom_fresh st rid s e hr hms]
        refine ⟨keysSorted_mapSet rid [] _ h.rmSorted, h.amSorted, ?_, ?_, ?_, ?_,
          h.idxKey, ?_, h.idxFresh⟩
        · intro p hp m hm
          rcases mem_mapSet rid [] _ p hp with h' | h'
          · rw [h'] at hm
            simp at hm
          · exact h.storeValid p h' m hm
        · intro p hp
          rcases mem_mapSet rid [] _ p hp with h' | h'
          · rw [h']
            exact List.Pairwise.nil
          · exact h.storeChain p h'
        · intro p hp m hm
          rcases mem_mapSet rid [] _ p hp with h' | h'
          · rw [h'] at hm
            simp at hm
          · exact h.storeRoom p h' m hm
        · intro p hp m hm
          rcases mem_mapSet rid [] _ p hp with h' | h'
          · rw [h'] at hm
            simp at hm
          · exact h.storeIdx p h' m hm
        · intro i m hfind
          obtain ⟨ms0, hms0, hmem0⟩ := h.idxStore i m hfind
          by_cases hrm : m.roomId = rid
          · rw [hrm, hms] at hms0
            cases hms0
          · exact ⟨ms0, by rw [mapFind_mapSet_ne rid m.roomId [] _ hrm]; exact hms0, hmem0⟩
  · rw [canBookRoom_unreg st rid s e (by simpa using hr)]
    exact h

theorem inv_getFreeRooms (st : EngineState) (s e : Int) (h : Inv st) :
    Inv (getFreeRooms st s e).2 := by
  rw [getFreeRooms_eq]
  exact h

theorem cancel_found_eq (st : EngineState) (i : Int) (m : Meeting)
    (hfind : mapFind i st.allMeetings = some m) (ms : List Meeting)
    (hms : mapFind m.roomId st.roomMeetings = some ms) :
    cancelMeeting st i =
      (true, { st with
          roomMeetings := mapSet m.roomId (msEraseStart m.startTime ms) st.roomMeetings,
          allMeetings := mapErase i st.allMeetings }) := by
  rw [cancelMeeting]
  rw [hfind]
  simp only [mapIndex, hms]

theorem inv_cancel (st : EngineState) (i : Int) (h : Inv st) :
    Inv (cancelMeeting st i).2 := by
  cases hfind : mapFind i st.allMeetings with
  | none =>
      rw [show cancelMeeting st i = (false, st) by rw [cancelMeeting, hfind]]
      exact h
  | some m =>
      obtain ⟨ms, hms, hmem⟩ := h.idxStore i m hfind
      have hpmem : (m.roomId, ms) ∈ st.roomMeetings :=
        (mem_iff_mapFind _ h.rmSorted _ _).mpr hms
      have hvalid := h.storeValid _ hpmem
      have hchain := h.storeChain _ hpmem
      obtain ⟨l1, l2, hsplit, hlt, hgt⟩ := mem_split_strict ms m hvalid hchain hmem
      have herase : msEraseStart m.startTime ms = l1 ++ l2 := by
        rw [hsplit]
        exact msEraseStart_append _ _ _ _ (fun x hx => ne_of_lt (hlt x hx)) rfl
      have hsubnew : (l1 ++ l2).Sublist ms := by
        rw [← herase]
        exact msEraseStart_sublist _ _
      have hmnotin : m ∉ l1 ++ l2 := by
        intro hx
        rcases List.mem_append.mp hx with hx' | hx'
        · exact absurd (hlt m hx') (lt_irrefl _)
        · exact absurd (hgt m hx') (lt_irrefl _)
      rw [cancel_found_eq st i m hfind ms hms, herase]
      refine ⟨keysSorted_mapSet _ _ _ h.rmSorted, keysSorted_mapErase _ _ h.amSorted,
        ?_, ?_, ?_, ?_, ?_, ?_, ?_⟩
      · intro p hp x hx
        rcases (mem_mapSet_sorted _ _ _ h.rmSorted p).mp hp with h' | h'
        · rw [h'] at hx
          exact hvalid x (List.Sublist.mem hx hsubnew)
        · exact h.storeValid p h'.1 x hx
      · intro p hp
        rcases (mem_mapSet_sorted _ _ _ h.rmSorted p).mp hp with h' | h'
        · rw [h']
          exact List.Pairwise.sublist hsubnew hchain
        · exact h.storeChain p h'.1
      · intro p hp x hx
        rcases (mem_mapSet_sorted _ _ _ h.rmSorted p).mp hp with h' | h'
        · rw [h'] at hx ⊢
          exact h.storeRoom _ hpmem x (List.Sublist.mem hx hsubnew)
        · exact h.storeRoom p h'.1 x hx
      · intro p hp x hx
        have hxid : x.meetingId ≠ i := by
          intro hxi
          rcases (mem_mapSet_sorted _ _ _ h.rmSorted p).mp hp with h' | h'
          · rw [h'] at hx
            have hxms : x ∈ ms := List.Sublist.mem hx hsubnew
            have := h.storeIdx _ hpmem x hxms
            rw [hxi, hfind] at this
            have hxm : x = m := by
              injection this with h2
              exact h2.symm
            rw [hxm] at hx
            rw [h'] at hp
            exact hmnotin hx
          · have := h.storeIdx p h'.1 x hx
            rw [hxi, hfind] at this
            have hxm : x = m := by
              injection this with h2
              exact h2.symm
            have hxr := h.storeRoom p h'.1 x hx
            rw [hxm] at hxr
            exact h'.2 hxr.symm
        rw [mapFind_mapErase_ne i x.meetingId _ hxid]
        rcases (mem_mapSet_sorted _ _ _ h.rmSorted p).mp hp with h' | h'
        · rw [h'] at hx
          exact h.storeIdx _ hpmem x (List.Sublist.mem hx hsubnew)
        · exact h.storeIdx p h'.1 x hx
      · intro j x hj
        by_cases hij : j = i
        · rw [hij, mapFind_mapErase_self i _ h.amSorted] at hj
          cases hj
        · rw [mapFind_mapErase_ne i j _ hij] at hj
          exact h.idxKey j x hj
      · intro j x hj
        by_cases hij : j = i
        · rw [hij, mapFind_mapErase_self i _ h.amSorted] at hj
          cases hj
        · rw [mapFind_mapErase_ne i j _ hij] at hj
          obtain ⟨ms0, hms0, hmem0⟩ := h.idxStore j x hj
          by_cases hxr : x.roomId = m.roomId
          · rw [hxr, hms] at hms0
            have hms0' : ms0 = ms := by
              injection hms0 with h2
              exact h2.symm
            refine ⟨l1 ++ l2, ?_, ?_⟩
            · rw [hxr]
              exact mapFind_mapSet_self _ _ _
            · have hxm : x ≠ m := by
                intro hxm
                rw [hxm] at hj
                have h1 := h.idxKey j m hj
                have h2 := h.idxKey i m hfind
                omega
              rw [hms0'] at hmem0
              rw [hsplit] at hmem0
              rcases List.mem_append.mp hmem0 with hx' | hx'
              · exact List.mem_append.mpr (Or.inl hx')
              · rcases List.mem_cons.mp hx' with hx'' | hx''
                · exact absurd hx'' hxm
                · exact List.mem_append.mpr (Or.inr hx'')
          · exact ⟨ms0, by rw [mapFind_mapSet_ne _ _ _ _ hxr]; exact hms0, hmem0⟩
      · intro j x hj
        by_cases hij : j = i
        · rw [hij, mapFind_mapErase_self i _ h.amSorted] at hj
          cases hj
        · rw [mapFind_mapErase_ne i j _ hij] at hj
          exact h.idxFresh j x hj

theorem nextId_fresh (st : EngineState) (h : Inv st) :
    mapFind st.nextMeetingId st.allMeetings = none := by
  cases hf : mapFind st.nextMeetingId st.allMeetings with
  | none => rfl
  | some x =>
      have := h.idxFresh _ x hf
      omega

theorem schedule_booked_eq (st : EngineState) (s e : Int) (r1 : Int)
    (r2 : List (Int × List Meeting))
    (hse : ¬ e ≤ s)
    (hl : schedLoop st.rooms s e st.nextMeetingId st.roomMeetings = some (r1, r2)) :
    scheduleMeeting st s e =
      (ScheduleResult.booked st.nextMeetingId r1,
       { st with
           roomMeetings := r2,
           allMeetings := mapEmplace st.nextMeetingId
             { meetingId := st.nextMeetingId, roomId := r1, startTime := s, endTime := e }
             st.allMeetings,
           nextMeetingId := st.nextMeetingId + 1 }) := by
  rw [scheduleMeeting, if_neg hse, hl]

theorem inv_schedule (st : EngineState) (s e : Int) (h : Inv st) :
    Inv (scheduleMeeting st s e).2 := by
  by_cases hse : e ≤ s
  · rw [scheduleMeeting, if_pos hse]
    exact h
  · cases hl : schedLoop st.rooms s e st.nextMeetingId st.roomMeetings with
    | none =>
        rw [scheduleMeeting, if_neg hse, hl]
        exact h
    | some r =>
        obtain ⟨r1, r2⟩ := r
        rw [schedule_booked_eq st s e r1 r2 hse hl]
        obtain ⟨pre, ms, post, hrm, hpre, hcond, hr2⟩ := schedLoop_some _ _ _ _ _ _ _ hl
        rw [Bool.and_eq_true] at hcond
        set nm : Meeting :=
          { meetingId := st.nextMeetingId, roomId := r1, startTime := s, endTime := e }
          with hnm
        have hemp : mapEmplace st.nextMeetingId nm st.allMeetings
            = mapSet st.nextMeetingId nm st.allMeetings := by
          rw [mapEmplace, nextId_fresh st h]
        have hsorted := h.rmSorted
        rw [hrm, KeysSorted, List.pairwise_append] at hsorted
        have hprelt : ∀ q ∈ pre, q.1 < r1 :=
          fun q hq => hsorted.2.2 q hq (r1, ms) (by simp)
        have hpwpost := hsorted.2.1
        rw [List.pairwise_cons] at hpwpost
        have hpmem : (r1, ms) ∈ st.roomMeetings := by
          rw [hrm]
          exact List.mem_append.mpr (Or.inr (by simp))
        have hvalid_ms := h.storeValid _ hpmem
        have hchain_ms := h.storeChain _ hpmem
        have hnms_chain := msInsert_chain st.nextMeetingId r1 s e ms hvalid_ms hchain_ms hcond.2
        have hfind_r1 : mapFind r1 r2 = some (msInsert nm ms) := by
          rw [hr2]
          exact mapFind_decomp_eq r1 _ pre post (fun q hq => ne_of_lt (hprelt q hq))
        have hfind_ne : ∀ k, k ≠ r1 → mapFind k r2 = mapFind k st.roomMeetings := by
          intro k hk
          rw [hr2, hrm]
          exact mapFind_replace_ne k r1 _ ms pre post hk
        have hmem_r2 : ∀ p, p ∈ r2 → p ∈ pre ∨ p = (r1, msInsert nm ms) ∨ p ∈ post := by
          intro p hp
          rw [hr2] at hp
          rcases List.mem_append.mp hp with h' | h'
          · exact Or.inl h'
          · rcases List.mem_cons.mp h' with h'' | h''
            · exact Or.inr (Or.inl h'')
            · exact Or.inr (Or.inr h'')
        have hmem_old : ∀ p, p ∈ pre ∨ p ∈ post → p ∈ st.roomMeetings := by
          intro p hp
          rw [hrm]
          rcases hp with h' | h'
          · exact List.mem_append.mpr (Or.inl h')
          · exact List.mem_append.mpr (Or.inr (List.mem_cons.mpr (Or.inr h')))
        have hxid_old : ∀ x : Meeting, mapFind x.meetingId st.allMeetings = some x →
            mapFind x.meetingId (mapSet st.nextMeetingId nm st.allMeetings) = some x := by
          intro x hx
          have hlt := h.idxFresh _ x hx
          rw [mapFind_mapSet_ne _ _ _ _ (by omega)]
          exact hx
        refine ⟨?_, ?_, ?_, ?_, ?_, ?_, ?_, ?_, ?_⟩
        · show KeysSorted r2
          rw [hr2, KeysSorted, List.pairwise_append]
          refine ⟨hsorted.1, ?_, ?_⟩
          · rw [List.pairwise_cons]
            exact ⟨fun b hb => hpwpost.1 b hb, hpwpost.2⟩
          · intro a ha b hb
            rcases List.mem_cons.mp hb with hb' | hb'
            · rw [hb']
              exact hprelt a ha
            · exact hsorted.2.2 a ha b (List.mem_cons.mpr (Or.inr hb'))
        · show KeysSorted (mapEmplace st.nextMeetingId nm st.allMeetings)
          rw [hemp]
          exact keysSorted_mapSet _ _ _ h.amSorted
        · intro p hp x hx
          rcases hmem_r2 p hp with h' | h' | h'
          · exact h.storeValid p (hmem_old p (Or.inl h')) x hx
          · rw [h'] at hx
            rcases (mem_msInsert nm x ms).mp hx with h'' | h''
            · rw [h'', hnm]
              simp only
              omega
            · exact hvalid_ms x h''
          · exact h.storeValid p (hmem_old p (Or.inr h')) x hx
        · intro p hp
          rcases hmem_r2 p hp with h' | h' | h'
          · exact h.storeChain p (hmem_old p (Or.inl h'))
          · rw [h']
            exact hnms_chain
          · exact h.storeChain p (hmem_old p (Or.inr h'))
        · intro p hp x hx
          rcases hmem_r2 p hp with h' | h' | h'
          · exact h.storeRoom p (hmem_old p (Or.inl h')) x hx
          · rw [h'] at hx ⊢
            rcases (mem_msInsert nm x ms).mp hx with h'' | h''
            · rw [h'']
            · exact h.storeRoom _ hpmem x h''
          · exact h.storeRoom p (hmem_old p (Or.inr h')) x hx
        · intro p hp x hx
          rw [hemp]
          rcases hmem_r2 p hp with h' | h' | h'
          · exact hxid_old x (h.storeIdx p (hmem_old p (Or.inl h')) x hx)
          · rw [h'] at hx
            rcases (mem_msInsert nm x ms).mp hx with h'' | h''
            · rw [h'']
              exact mapFind_mapSet_self _ _ _
            · exact hxid_old x (h.storeIdx _ hpmem x h'')
          · exact hxid_old x (h.storeIdx p (hmem_old p (Or.inr h')) x hx)
        · intro j x hj
          rw [hemp] at hj
          by_cases hji : j = st.nextMeetingId
          · rw [hji, mapFind_mapSet_self] at hj
            have hx : x = nm := by
              injection hj with h2
              exact h2.symm
            rw [hx, hji]
          · rw [mapFind_mapSet_ne _ _ _ _ hji] at hj
            exact h.idxKey j x hj
        · intro j x hj
          rw [hemp] at hj
          by_cases hji : j = st.nextMeetingId
          · rw [hji, mapFind_mapSet_self] at hj
            have hx : x = nm := by
              injection hj with h2
              exact h2.symm
            refine ⟨msInsert nm ms, ?_, ?_⟩
            · rw [hx]
              exact hfind_r1
            · rw [hx]
              exact (mem_msInsert nm nm ms).mpr (Or.inl rfl)
          · rw [mapFind_mapSet_ne _ _ _ _ hji] at hj
            obtain ⟨ms0, hms0, hmem0⟩ := h.idxStore j x hj
            by_cases hxr : x.roomId = r1
            · refine ⟨msInsert nm ms, ?_, ?_⟩
              · rw [hxr]
                exact hfind_r1
              · rw [hxr] at hms0
                have hms_find : mapFind r1 st.roomMeetings = some ms := by
                  rw [hrm]
                  exact mapFind_decomp_eq r1 ms pre post
                    (fun q hq => ne_of_lt (hprelt q hq))
                rw [hms_find] at hms0
                have hms0' : ms0 = ms := by
                  injection hms0 with h2
                  exact h2.symm
                rw [hms0'] at hmem0
                exact (mem_msInsert nm x ms).mpr (Or.inr hmem0)
            · exact ⟨ms0, by rw [hfind_ne x.roomId hxr]; exact hms0, hmem0⟩
        · intro j x hj
          rw [hemp] at hj
          show j < st.nextMeetingId + 1
          by_cases hji : j = st.nextMeetingId
          · omega
          · rw [mapFind_mapSet_ne _ _ _ _ hji] at hj
            have := h.idxFresh j x hj
            omega

/-- The invariant holds in every reachable state. -/
theorem reachable_inv (st : EngineState) (h : Reachable st) : Inv st := by
  induction h with
  | setup st hs => exact inv_of_setup st hs
  | schedule st s e hst ih => exact inv_schedule st s e ih
  | cancel st i hst ih => exact inv_cancel st i ih
  | probe st rid s e hst ih => exact inv_canBookRoom st rid s e ih
  | free st s e hst ih => exact inv_getFreeRooms st s e ih

/-- A successful booking followed by cancellation of the returned id
restores the whole engine state except for the consumed meeting id. -/
theorem schedule_cancel_state (st : EngineState) (h : Inv st) (s e i rid : Int)
    (hs : (scheduleMeeting st s e).1 = ScheduleResult.booked i rid) :
    i = st.nextMeetingId ∧
    (cancelMeeting (scheduleMeeting st s e).2 i).2
      = { st with nextMeetingId := st.nextMeetingId + 1 } := by
  by_cases hse : e ≤ s
  · rw [scheduleMeeting, if_pos hse] at hs
    simp at hs
  · cases hl : schedLoop st.rooms s e st.nextMeetingId st.roomMeetings with
    | none =>
        rw [scheduleMeeting, if_neg hse, hl] at hs
        simp at hs
    | some r =>
        obtain ⟨r1, r2⟩ := r
        have heq := schedule_booked_eq st s e r1 r2 hse hl
        rw [heq] at hs
        simp only [ScheduleResult.booked.injEq] at hs
        obtain ⟨hmid, hrid⟩ := hs
        subst hmid
        refine ⟨rfl, ?_⟩
        obtain ⟨pre, ms, post, hrm, hpre, hcond, hr2⟩ := schedLoop_some _ _ _ _ _ _ _ hl
        rw [Bool.and_eq_true] at hcond
        set nm : Meeting :=
          { meetingId := st.nextMeetingId, roomId := r1, startTime := s, endTime := e }
          with hnm
        have hfresh := nextId_fresh st h
        have hemp : mapEmplace st.nextMeetingId nm st.allMeetings
            = mapSet st.nextMeetingId nm st.allMeetings := by
          rw [mapEmplace, hfresh]
        have hsorted := h.rmSorted
        rw [hrm, KeysSorted, List.pairwise_append] at hsorted
        have hprelt : ∀ q ∈ pre, q.1 < r1 :=
          fun q hq => hsorted.2.2 q hq (r1, ms) (by simp)
        have hpmem : (r1, ms) ∈ st.roomMeetings := by
          rw [hrm]
          exact List.mem_append.mpr (Or.inr (by simp))
        have hvalid_ms := h.storeValid _ hpmem
        have hchain_ms := h.storeChain _ hpmem
        have hfind1 : mapFind st.nextMeetingId
            (mapEmplace st.nextMeetingId nm st.allMeetings) = some nm := by
          rw [hemp]
          exact mapFind_mapSet_self _ _ _
        have hfindroom : mapFind nm.roomId r2 = some (msInsert nm ms) := by
          show mapFind r1 r2 = some (msInsert nm ms)
          rw [hr2]
          exact mapFind_decomp_eq r1 _ pre post (fun q hq => ne_of_lt (hprelt q hq))
        have hleb := canFit_le_bound s e ms hchain_ms hcond.2
        have hne_le : ∀ x ∈ ms.takeWhile (fun x => x.startTime ≤ s), x.startTime ≠ s := by
          intro x hx
          have h1 := hleb x hx
          have h2 := hvalid_ms x (List.Sublist.mem hx (List.takeWhile_sublist _))
          omega
        have herase : msEraseStart nm.startTime (msInsert nm ms) = ms := by
          show msEraseStart s (msInsert nm ms) = ms
          rw [msInsert_split]
          show msEraseStart s
            (ms.takeWhile (fun x => x.startTime ≤ s)
              ++ nm :: ms.dropWhile (fun x => x.startTime ≤ s)) = ms
          rw [msEraseStart_append s _ nm _ hne_le rfl]
          exact List.takeWhile_append_dropWhile _ _
        have hback : mapSet nm.roomId ms r2 = st.roomMeetings := by
          show mapSet r1 ms r2 = st.roomMeetings
          rw [hr2, mapSet_decomp r1 (msInsert nm ms) ms pre post hprelt]
          exact hrm.symm
        have hargeback : mapErase st.nextMeetingId
            (mapEmplace st.nextMeetingId nm st.allMeetings) = st.allMeetings := by
          rw [hemp]
          exact mapErase_mapSet_fresh _ _ _ h.amSorted hfresh
        rw [heq]
        rw [cancel_found_eq _ st.nextMeetingId nm hfind1 (msInsert nm ms) hfindroom]
        show ({ rooms := st.rooms, nextRoomId := st.nextRoomId,
                roomMeetings :=
                  mapSet nm.roomId (msEraseStart nm.startTime (msInsert nm ms)) r2,
                allMeetings :=
                  mapErase st.nextMeetingId (mapEmplace st.nextMeetingId nm st.allMeetings),
                nextMeetingId := st.nextMeetingId + 1 } : EngineState)
          = { st with nextMeetingId := st.nextMeetingId + 1 }
        rw [herase, hback, hargeback]

/-! ### Concrete states used by witnesses and counterexamples -/

/-- One room registered, not yet tracked. -/
def stA : EngineState := (addRoom initState "A").2

/-- One room registered and tracked, no meetings. -/
def stB : EngineState := addRoomToTracking stA 1

/-- One room with one meeting, id 1, interval 10 to 12. -/
def stC : EngineState := (scheduleMeeting stB 10 12).2

/-- Two rooms registered, none tracked. -/
def stD : EngineState := (addRoom stA "B").2

/-- Two rooms registered, only room 2 tracked. -/
def stE : EngineState := addRoomToTracking stD 2

theorem setup_stB : SetupReachable stB :=
  SetupReachable.track stA 1 (SetupReachable.room initState "A" SetupReachable.empty)

theorem reach_stB : Reachable stB := Reachable.setup stB setup_stB

theorem reach_stC : Reachable stC := Reachable.schedule stB 10 12 reach_stB

/-! ### The claims -/

/-- Claim C1: in every state reachable from an empty engine by any
sequence of scheduleMeeting, cancelMeeting, getFreeRooms and canBookRoom
calls, any two intervals booked in the same room satisfy
a.end ≤ b.start or b.end ≤ a.start (touching endpoints permitted). -/
theorem per_room_nonoverlap (st : EngineState) (h : Reachable st)
    (p : Int × List Meeting) (hp : p ∈ st.roomMeetings) :
    List.Pairwise
      (fun a b : Meeting => a.endTime ≤ b.startTime ∨ b.endTime ≤ a.startTime) p.2 :=
  List.Pairwise.imp (fun hab => Or.inl hab) ((reachable_inv st h).storeChain p hp)

theorem per_room_nonoverlap_witness :
    List.Pairwise
      (fun a b : Meeting => a.endTime ≤ b.startTime ∨ b.endTime ≤ a.startTime)
      [{ meetingId := 1, roomId := 1, startTime := 10, endTime := 12 }] :=
  per_room_nonoverlap stC reach_stC
    (1, [{ meetingId := 1, roomId := 1, startTime := 10, endTime := 12 }]) (by decide)

/-- Claim C2: in every reachable state the meeting index has exactly one
entry per active meeting (strictly sorted, hence duplicate-free, keys),
every index entry's meeting is physically present in its room's store,
and every store entry is tagged with its room and indexed under its id:
the index and the stores describe the same meetings. -/
theorem index_store_consistent (st : EngineState) (h : Reachable st) :
    KeysSorted st.allMeetings ∧
    (∀ i m, mapFind i st.allMeetings = some m →
        m.meetingId = i ∧ ∃ ms, mapFind m.roomId st.roomMeetings = some ms ∧ m ∈ ms) ∧
    (∀ p ∈ st.roomMeetings, ∀ m ∈ p.2,
        m.roomId = p.1 ∧ mapFind m.meetingId st.allMeetings = some m) := by
  have hinv := reachable_inv st h
  exact ⟨hinv.amSorted,
    fun i m hf => ⟨hinv.idxKey i m hf, hinv.idxStore i m hf⟩,
    fun p hp m hm => ⟨hinv.storeRoom p hp m hm, hinv.storeIdx p hp m hm⟩⟩

theorem index_store_consistent_witness :
    ({ meetingId := 1, roomId := 1, startTime := 10, endTime := 12 } : Meeting).meetingId = 1
      ∧ ∃ ms, mapFind
          ({ meetingId := 1, roomId := 1, startTime := 10, endTime := 12 } : Meeting).roomId
          stC.roomMeetings = some ms
        ∧ ({ meetingId := 1, roomId := 1, startTime := 10, endTime := 12 } : Meeting) ∈ ms :=
  (index_store_consistent stC reach_stC).2.1 1
    { meetingId := 1, roomId := 1, startTime := 10, endTime := 12 } (by decide)

/-- Claim C3: for a registered, tracked room whose store satisfies the
per-room invariant (valid intervals, sorted by start, pairwise
non-overlapping) and a candidate with start < end, canBookRoom answers
true exactly when every booked interval ends at or before the candidate
starts or starts at or after it ends; the decision examines only the
predecessor and successor at the sorted insertion point (definition of
canFit). -/
theorem canBookRoom_iff_disjoint (st : EngineState) (rid s e : Int) (ms : List Meeting)
    (hreg : roomExists st.rooms rid = true)
    (htracked : mapFind rid st.roomMeetings = some ms)
    (hvalid : ∀ m ∈ ms, m.startTime < m.endTime)
    (hsort : List.Pairwise (fun a b : Meeting => a.startTime ≤ b.startTime) ms)
    (hdisj : List.Pairwise
      (fun a b : Meeting => a.endTime ≤ b.startTime ∨ b.endTime ≤ a.startTime) ms)
    (hse : s < e) :
    ((canBookRoom st rid s e).1 = true ↔ ∀ m ∈ ms, m.endTime ≤ s ∨ e ≤ m.startTime) := by
  rw [canBookRoom_tracked st rid s e ms htracked]
  show (roomExists st.rooms rid && canFit s e ms) = true ↔ _
  rw [hreg, Bool.true_and]
  exact canFit_true_iff s e ms hvalid (chain_of_disjoint ms hvalid hsort hdisj) hse

theorem canBookRoom_iff_disjoint_witness :
    ((canBookRoom stC 1 12 14).1 = true ↔
      ∀ m ∈ [({ meetingId := 1, roomId := 1, startTime := 10, endTime := 12 } : Meeting)],
        m.endTime ≤ 12 ∨ 14 ≤ m.startTime) :=
  canBookRoom_iff_disjoint stC 1 12 14
    [{ meetingId := 1, roomId := 1, startTime := 10, endTime := 12 }]
    (by decide) (by decide) (by decide) (by decide) (by decide) (by decide)

/-- Claim C7: cancelling an id that is not in the meeting index returns
false and leaves the whole engine state unchanged. -/
theorem cancel_unknown_noop (st : EngineState) (i : Int)
    (h : mapFind i st.allMeetings = none) :
    cancelMeeting st i = (false, st) := by
  rw [cancelMeeting, h]

theorem cancel_unknown_noop_witness : cancelMeeting stB 999 = (false, stB) :=
  cancel_unknown_noop stB 999 (by decide)

/-- Claim C4 counterexample: with rooms 1 and 2 registered in that order
but only room 2 tracked, scheduleMeeting books room 2 although room 1
comes first in registration order (ascending roomId) and
canBookRoom(1, 0, 1) is true: the loop runs over the tracked map, not
the registration list. -/
theorem schedule_not_registration_order :
    (scheduleMeeting stE 0 1).1 = ScheduleResult.booked 1 2 ∧
    (canBookRoom stE 1 0 1).1 = true ∧
    stE.rooms.map Room.roomId = [1, 2] := by decide

/-- Claim C4 (amended): deterministic first-fit over the tracked rooms:
a successful scheduleMeeting books the first key of roomMeetings, in
ascending roomId order, whose canBookRoom probe succeeds, and every
tracked room with a smaller id fails its probe. -/
theorem schedule_first_fit_tracked (st : EngineState) (s e i rid : Int)
    (hsorted : KeysSorted st.roomMeetings)
    (hs : (scheduleMeeting st s e).1 = ScheduleResult.booked i rid) :
    rid ∈ st.roomMeetings.map Prod.fst ∧
    (canBookRoom st rid s e).1 = true ∧
    ∀ rid' ∈ st.roomMeetings.map Prod.fst, rid' < rid →
      (canBookRoom st rid' s e).1 = false := by
  by_cases hse : e ≤ s
  · rw [scheduleMeeting, if_pos hse] at hs
    simp at hs
  · cases hl : schedLoop st.rooms s e st.nextMeetingId st.roomMeetings with
    | none =>
        rw [scheduleMeeting, if_neg hse, hl] at hs
        simp at hs
    | some r =>
        obtain ⟨r1, r2⟩ := r
        rw [schedule_booked_eq st s e r1 r2 hse hl] at hs
        simp only [ScheduleResult.booked.injEq] at hs
        obtain ⟨hmid, hrid⟩ := hs
        subst hrid
        obtain ⟨pre, ms, post, hrm, hpre, hcond, hr2⟩ := schedLoop_some _ _ _ _ _ _ _ hl
        have hsorted' := hsorted
        rw [KeysSorted, hrm, List.pairwise_append] at hsorted'
        have hprelt : ∀ q ∈ pre, q.1 < r1 :=
          fun q hq => hsorted'.2.2 q hq (r1, ms) (by simp)
        have hpostgt : ∀ q ∈ post, r1 < q.1 := by
          intro q hq
          have h2 := hsorted'.2.1
          rw [List.pairwise_cons] at h2
          exact h2.1 q hq
        have hms_find : mapFind r1 st.roomMeetings = some ms := by
          rw [hrm]
          exact mapFind_decomp_eq r1 ms pre post (fun q hq => ne_of_lt (hprelt q hq))
        refine ⟨?_, ?_, ?_⟩
        · rw [hrm]
          simp
        · rw [canBookRoom_tracked st r1 s e ms hms_find]
          exact hcond
        · intro rid' hrid' hlt
          obtain ⟨v, hv⟩ := mem_keys_mapFind rid' st.roomMeetings hrid'
          rw [canBookRoom_tracked st rid' s e v hv]
          have hpair : (rid', v) ∈ st.roomMeetings :=
            (mem_iff_mapFind st.roomMeetings hsorted rid' v).mpr hv
          rw [hrm] at hpair
          rcases List.mem_append.mp hpair with h' | h'
          · exact hpre (rid', v) h'
          · rcases List.mem_cons.mp h' with h'' | h''
            · exfalso
              have : rid' = r1 := by
                have := congrArg Prod.fst h''
                simpa using this
              omega
            · exfalso
              have := hpostgt (rid', v) h''
              simp only at this
              omega

theorem schedule_first_fit_tracked_witness :
    (1 : Int) ∈ stC.roomMeetings.map Prod.fst ∧
    (canBookRoom stC 1 12 14).1 = true ∧
    ∀ rid' ∈ stC.roomMeetings.map Prod.fst, rid' < 1 →
      (canBookRoom stC rid' 12 14).1 = false :=
  schedule_first_fit_tracked stC 12 14 2 1
    (show List.Pairwise (fun a b : Int × List Meeting => a.1 < b.1) stC.roomMeetings
      by decide)
    (by decide)

/-- Claim C5 counterexample: with room 1 registered but untracked and no
tracked rooms at all, scheduleMeeting(0, 1) fails with NoRoomAvailable
even though registered room 1 could fit the interval (its canBookRoom
probe is true): the exhaustion test ranges over tracked rooms only. -/
theorem schedule_noroom_despite_registered_fit :
    (scheduleMeeting stA 0 1).1 = ScheduleResult.noRoomAvailable ∧
    roomExists stA.rooms 1 = true ∧
    (canBookRoom stA 1 0 1).1 = true := by decide

/-- Claim C5 (amended): scheduleMeeting fails with InvalidInterval
exactly when start ≥ end, fails with NoRoomAvailable exactly when
start < end and the canBookRoom probe fails for every tracked room, and
in both failure cases the state is returned unchanged. -/
theorem schedule_failure_atomic (st : EngineState) (s e : Int)
    (hsorted : KeysSorted st.roomMeetings) :
    ((scheduleMeeting st s e).1 = ScheduleResult.invalidInterval ↔ e ≤ s) ∧
    ((scheduleMeeting st s e).1 = ScheduleResult.noRoomAvailable ↔
      (s < e ∧ ∀ rid ∈ st.roomMeetings.map Prod.fst,
        (canBookRoom st rid s e).1 = false)) ∧
    (((scheduleMeeting st s e).1 = ScheduleResult.invalidInterval ∨
        (scheduleMeeting st s e).1 = ScheduleResult.noRoomAvailable) →
      (scheduleMeeting st s e).2 = st) := by
  by_cases hse : e ≤ s
  · rw [scheduleMeeting, if_pos hse]
    refine ⟨by simp [hse], ?_, fun _ => rfl⟩
    constructor
    · intro hh
      exact absurd hh (by simp)
    · intro hh
      exact absurd hh.1 (by omega)
  · cases hl : schedLoop st.rooms s e st.nextMeetingId st.roomMeetings with
    | none =>
        rw [scheduleMeeting, if_neg hse, hl]
        have hall := (schedLoop_none_iff st.rooms s e st.nextMeetingId st.roomMeetings).mp hl
        refine ⟨by simp [hse], ?_, fun _ => rfl⟩
        constructor
        · intro _
          refine ⟨by omega, ?_⟩
          intro rid hrid
          obtain ⟨v, hv⟩ := mem_keys_mapFind rid st.roomMeetings hrid
          rw [canBookRoom_tracked st rid s e v hv]
          exact hall (rid, v) ((mem_iff_mapFind st.roomMeetings hsorted rid v).mpr hv)
        · intro _
          rfl
    | some r =>
        obtain ⟨r1, r2⟩ := r
        rw [schedule_booked_eq st s e r1 r2 hse hl]
        refine ⟨by simp [hse], ?_, ?_⟩
        · constructor
          · intro hh
            exact absurd hh (by simp)
          · intro hh
            exfalso
            have hnone : schedLoop st.rooms s e st.nextMeetingId st.roomMeetings = none := by
              rw [schedLoop_none_iff]
              intro q hq
              have hqfind : mapFind q.1 st.roomMeetings = some q.2 :=
                (mem_iff_mapFind st.roomMeetings hsorted q.1 q.2).mp (by simpa using hq)
              have := hh.2 q.1 (by
                rcases q with ⟨q1, q2⟩
                exact List.mem_map.mpr ⟨(q1, q2), hq, rfl⟩)
              rw [canBookRoom_tracked st q.1 s e q.2 hqfind] at this
              exact this
            rw [hnone] at hl
            cases hl
        · intro hh
          rcases hh with hh | hh
          · exact absurd hh (by simp)
          · exact absurd hh (by simp)

theorem schedule_failure_atomic_witness :
    ((scheduleMeeting stB 15 15).1 = ScheduleResult.invalidInterval ↔ (15 : Int) ≤ 15) ∧
    ((scheduleMeeting stB 15 15).1 = ScheduleResult.noRoomAvailable ↔
      ((15 : Int) < 15 ∧ ∀ rid ∈ stB.roomMeetings.map Prod.fst,
        (canBookRoom stB rid 15 15).1 = false)) ∧
    (((scheduleMeeting stB 15 15).1 = ScheduleResult.invalidInterval ∨
        (scheduleMeeting stB 15 15).1 = ScheduleResult.noRoomAvailable) →
      (scheduleMeeting stB 15 15).2 = stB) :=
  schedule_failure_atomic stB 15 15
    (show List.Pairwise (fun a b : Int × List Meeting => a.1 < b.1) stB.roomMeetings
      by decide)

/-- Claim C9 counterexample: canBookRoom on a room that is registered
but has no entry in the per-room store map mutates the engine state (an
empty store entry is default-inserted by operator brackets). -/
theorem canBookRoom_mutates_untracked : (canBookRoom stA 1 0 1).2 ≠ stA := by decide

/-- Claim C9 (amended): getFreeRooms never changes the engine state, and
canBookRoom leaves it unchanged when the room is unregistered or already
tracked; only a probe of a registered, untracked room mutates the state,
by creating an empty store entry for that room. -/
theorem queries_state_effect (st : EngineState) (rid s e : Int) :
    (getFreeRooms st s e).2 = st ∧
    (roomExists st.rooms rid = false → (canBookRoom st rid s e).2 = st) ∧
    (∀ ms, mapFind rid st.roomMeetings = some ms → (canBookRoom st rid s e).2 = st) ∧
    (roomExists st.rooms rid = true → mapFind rid st.roomMeetings = none →
      (canBookRoom st rid s e).2
        = { st with roomMeetings := mapSet rid [] st.roomMeetings }) := by
  refine ⟨?_, ?_, ?_, ?_⟩
  · rw [getFreeRooms_eq]
  · intro h
    rw [canBookRoom_unreg st rid s e h]
  · intro ms h
    rw [canBookRoom_tracked st rid s e ms h]
  · intro h1 h2
    rw [canBookRoom_fresh st rid s e h1 h2]

theorem queries_state_effect_witness :
    (getFreeRooms stC 0 5).2 = stC ∧
    (canBookRoom stA 1 0 1).2 = { stA with roomMeetings := mapSet 1 [] stA.roomMeetings } :=
  ⟨(queries_state_effect stC 1 0 5).1,
   (queries_state_effect stA 1 0 1).2.2.2 (by decide) (by decide)⟩

/-- Claim C10: the availability probes perform no interval validation:
for a registered, tracked room with an empty store, canBookRoom answers
true for every start and end, including start ≥ end, such a room is
always listed by getFreeRooms, and only scheduleMeeting rejects an
invalid interval. -/
theorem probes_no_validation (st : EngineState) (rid s e : Int)
    (hreg : roomExists st.rooms rid = true)
    (hempty : mapFind rid st.roomMeetings = some []) :
    (canBookRoom st rid s e).1 = true ∧
    rid ∈ (getFreeRooms st s e).1 ∧
    (e ≤ s → (scheduleMeeting st s e).1 = ScheduleResult.invalidInterval) := by
  refine ⟨?_, ?_, ?_⟩
  · rw [canBookRoom_tracked st rid s e [] hempty]
    show (roomExists st.rooms rid && canFit s e []) = true
    simp [hreg, canFit]
  · rw [getFreeRooms_eq]
    show rid ∈ List.filter _ (st.roomMeetings.map Prod.fst)
    rw [List.mem_filter]
    refine ⟨mapFind_mem_keys rid [] _ hempty, ?_⟩
    rw [hempty]
    simp [hreg, canFit]
  · intro h
    rw [scheduleMeeting, if_pos h]

theorem probes_no_validation_witness :
    (canBookRoom stB 1 5 3).1 = true ∧
    (1 : Int) ∈ (getFreeRooms stB 5 3).1 ∧
    (scheduleMeeting stB 5 3).1 = ScheduleResult.invalidInterval :=
  ⟨(probes_no_validation stB 1 5 3 (by decide) (by decide)).1,
   (probes_no_validation stB 1 5 3 (by decide) (by decide)).2.1,
   (probes_no_validation stB 1 5 3 (by decide) (by decide)).2.2 (by decide)⟩

/-- Claim C6: in a reachable state, cancelling an active meeting returns
true and yields exactly the prior state with that single meeting removed
from its room's store (every other store entry, and every other meeting
in the same store - including a back-to-back neighbour or a same-start
meeting of another room - is kept, in order) and its single entry
removed from the meeting index. -/
theorem cancel_exact_removal (st : EngineState) (h : Reachable st) (i : Int) (m : Meeting)
    (hfind : mapFind i st.allMeetings = some m) :
    (cancelMeeting st i).1 = true ∧
    ∃ ms l1 l2 p1 p2 a1 a2,
      mapFind m.roomId st.roomMeetings = some ms ∧
      ms = l1 ++ m :: l2 ∧ m ∉ l1 ∧ m ∉ l2 ∧
      st.roomMeetings = p1 ++ (m.roomId, ms) :: p2 ∧
      st.allMeetings = a1 ++ (i, m) :: a2 ∧
      (cancelMeeting st i).2 =
        { st with
            roomMeetings := p1 ++ (m.roomId, l1 ++ l2) :: p2,
            allMeetings := a1 ++ a2 } := by
  have hinv := reachable_inv st h
  obtain ⟨ms, hms, hmem⟩ := hinv.idxStore i m hfind
  have hpmem : (m.roomId, ms) ∈ st.roomMeetings :=
    (mem_iff_mapFind _ hinv.rmSorted _ _).mpr hms
  have hvalid := hinv.storeValid _ hpmem
  have hchain := hinv.storeChain _ hpmem
  obtain ⟨l1, l2, hsplit, hlt, hgt⟩ := mem_split_strict ms m hvalid hchain hmem
  have herase : msEraseStart m.startTime ms = l1 ++ l2 := by
    rw [hsplit]
    exact msEraseStart_append _ _ _ _ (fun x hx => ne_of_lt (hlt x hx)) rfl
  obtain ⟨p1, p2, hp1, hp1ne⟩ := mapFind_decomp m.roomId ms st.roomMeetings hms
  obtain ⟨a1, a2, ha1, ha1ne⟩ := mapFind_decomp i m st.allMeetings hfind
  have hp1lt : ∀ q ∈ p1, q.1 < m.roomId := by
    have hsorted := hinv.rmSorted
    rw [KeysSorted, hp1, List.pairwise_append] at hsorted
    exact fun q hq => hsorted.2.2 q hq (m.roomId, ms) (by simp)
  have hnotin1 : m ∉ l1 := fun hx => absurd (hlt m hx) (lt_irrefl _)
  have hnotin2 : m ∉ l2 := fun hx => absurd (hgt m hx) (lt_irrefl _)
  have hstep := cancel_found_eq st i m hfind ms hms
  refine ⟨by rw [hstep], ms, l1, l2, p1, p2, a1, a2, hms, hsplit,
    hnotin1, hnotin2, hp1, ha1, ?_⟩
  rw [hstep]
  show ({ st with
      roomMeetings := mapSet m.roomId (msEraseStart m.startTime ms) st.roomMeetings,
      allMeetings := mapErase i st.allMeetings } : EngineState) = _
  rw [herase]
  rw [show mapSet m.roomId (l1 ++ l2) st.roomMeetings = p1 ++ (m.roomId, l1 ++ l2) :: p2 by
    rw [hp1]
    exact mapSet_decomp m.roomId ms (l1 ++ l2) p1 p2 hp1lt]
  rw [show mapErase i st.allMeetings = a1 ++ a2 by
    rw [ha1]
    exact mapErase_decomp i m a1 a2 ha1ne]

theorem cancel_exact_removal_witness :
    (cancelMeeting stC 1).1 = true ∧
    ∃ ms l1 l2 p1 p2 a1 a2,
      mapFind
        ({ meetingId := 1, roomId := 1, startTime := 10, endTime := 12 } : Meeting).roomId
        stC.roomMeetings = some ms ∧
      ms = l1 ++ { meetingId := 1, roomId := 1, startTime := 10, endTime := 12 } :: l2 ∧
      ({ meetingId := 1, roomId := 1, startTime := 10, endTime := 12 } : Meeting) ∉ l1 ∧
      ({ meetingId := 1, roomId := 1, startTime := 10, endTime := 12 } : Meeting) ∉ l2 ∧
      stC.roomMeetings = p1
        ++ (({ meetingId := 1, roomId := 1, startTime := 10, endTime := 12 } : Meeting).roomId,
            ms) :: p2 ∧
      stC.allMeetings = a1
        ++ (1, ({ meetingId := 1, roomId := 1, startTime := 10, endTime := 12 } : Meeting))
          :: a2 ∧
      (cancelMeeting stC 1).2 =
        { stC with
            roomMeetings := p1
              ++ (({ meetingId := 1, roomId := 1, startTime := 10, endTime := 12 }
                    : Meeting).roomId, l1 ++ l2) :: p2,
            allMeetings := a1 ++ a2 } :=
  cancel_exact_removal stC reach_stC 1
    { meetingId := 1, roomId := 1, startTime := 10, endTime := 12 } (by decide)

/-- Claim C8: in a reachable state, a successful scheduleMeeting
followed by cancelMeeting of the returned meeting id restores the value
of getFreeRooms for every query interval to what it was before the
schedule call. -/
theorem schedule_cancel_roundtrip (st : EngineState) (h : Reachable st)
    (s e i rid : Int)
    (hs : (scheduleMeeting st s e).1 = ScheduleResult.booked i rid)
    (qs qe : Int) :
    (getFreeRooms (cancelMeeting (scheduleMeeting st s e).2 i).2 qs qe).1
      = (getFreeRooms st qs qe).1 := by
  obtain ⟨hmid, hstate⟩ := schedule_cancel_state st (reachable_inv st h) s e i rid hs
  rw [hstate, getFreeRooms_eq, getFreeRooms_eq]

theorem schedule_cancel_roundtrip_witness :
    (getFreeRooms (cancelMeeting (scheduleMeeting stB 10 12).2 1).2 0 5).1
      = (getFreeRooms stB 0 5).1 :=
  schedule_cancel_roundtrip stB reach_stB 10 12 1 1 (by decide) 0 5

end MeetingScheduler
